import Mathlib

/-! Verification development for the `include_pkg` headers.

Shallow embedding of

* `Ortalama.hpp`  : the rolling-average class `Ortalama<T>`,
* `test.hpp`      : `test::split`, `test::trim` and the `CHECK` family,
* `general.hpp`   : `general::print`,
* `MouseController.hpp` : the keyboard side of `MouseController`
  (only the declarations are in the header; the bodies are modelled from the
  specification and marked as such).

Strings are lists of characters, streams are explicit values, exceptions are
`Except`, and the exact field type of `Ortalama<T>` is `ℚ`.
-/

/-! ## `Ortalama.hpp` -/

/-- State of an `Ortalama<T>` object with `T := ℚ`: the queue `_list` (front of
the queue is the head of the list), the window size `_N` and the running
average `_ort`. -/
structure Ortalama where
  _list : List ℚ
  _N : ℕ
  _ort : ℚ

namespace Ortalama

/-- Constructor `Ortalama(size_t N)`: `_N(N)`, `_ort(0)`, and `assert(N > 0)`;
a failed assertion is `none`. -/
def new (N : ℕ) : Option Ortalama :=
  if 0 < N then some { _list := [], _N := N, _ort := 0 } else none

/-- The public read-only reference `ortalama`, bound to `_ort`. -/
def ortalama (o : Ortalama) : ℚ := o._ort

/-- Method `void add(T x)`.
```
_ort = (_ort * _list.size() + x) / (_list.size() + 1);
_list.push(x);
if (_list.size() > _N) {
    _ort = (_ort * _list.size() - _list.front()) / (_list.size() - 1);
    _list.pop();
}
``` -/
def add (o : Ortalama) (x : ℚ) : Ortalama :=
  let ort1 : ℚ := (o._ort * (o._list.length : ℕ) + x) / ((o._list.length + 1 : ℕ) : ℚ)
  let list1 : List ℚ := o._list ++ [x]
  if list1.length > o._N then
    match list1 with
    | [] => { o with _list := list1, _ort := ort1 }
    | front :: rest =>
      { o with
        _ort := (ort1 * (list1.length : ℕ) - front) / ((list1.length - 1 : ℕ) : ℚ)
        _list := rest }
  else
    { o with _list := list1, _ort := ort1 }

/-- Method `void reset()`. -/
def reset (o : Ortalama) : Ortalama :=
  { o with _list := [], _ort := 0 }

/-- The calls `add(x1); ...; add(xk)` in order. -/
def addAll (o : Ortalama) (xs : List ℚ) : Ortalama :=
  xs.foldl add o

end Ortalama

/-! ## `test.hpp` -/

namespace test

/-- State of a `std::istringstream`: the characters not yet read and the
`eofbit` / `failbit` flags. -/
structure istringstream where
  buf : List Char
  eofbit : Bool
  failbit : Bool

/-- Constructor `std::istringstream os(str)`. -/
def istringstream.new (str : List Char) : istringstream :=
  { buf := str, eofbit := false, failbit := false }

/-- The stream used as a condition: `!fail()`. -/
def istringstream.ok (s : istringstream) : Bool := !s.failbit

/-- Extraction loop of `std::getline`: characters are appended until the
delimiter is met (it is extracted and dropped) or the input ends.  The result
is the text read, the unread rest, and whether the end of input was hit. -/
def getlineChars (delim : Char) : List Char → List Char × List Char × Bool
  | [] => ([], [], true)
  | c :: cs =>
    if c = delim then ([], cs, false)
    else
      let r := getlineChars delim cs
      (c :: r.1, r.2.1, r.2.2)

/-- Library call `std::getline(is, temp, delim)`.  If the stream is not good the
sentry fails: `failbit` is set and `temp` is left alone.  Otherwise `temp` is
erased and filled by the extraction loop; reaching the end of input sets
`eofbit`, and extracting nothing at all sets `failbit`. -/
def getline (is : istringstream) (temp : List Char) (delim : Char) :
    istringstream × List Char :=
  if is.eofbit || is.failbit then
    ({ is with failbit := true }, temp)
  else
    let r := getlineChars delim is.buf
    ({ buf := r.2.1, eofbit := r.2.2, failbit := r.2.2 && is.buf.isEmpty }, r.1)

/-- The loop of `split`:
```
while (std::getline(os, temp, delim)) {
    res.push_back(temp);
}
``` -/
def splitLoop (delim : Char) (os : istringstream) (temp : List Char)
    (res : List (List Char)) : List (List Char) :=
  if h : (getline os temp delim).1.ok = true then
    splitLoop delim (getline os temp delim).1 (getline os temp delim).2
      (res ++ [(getline os temp delim).2])
  else res
termination_by os.buf.length
decreasing_by
  have hle : ∀ l : List Char, (getlineChars delim l).2.1.length ≤ l.length := by
    intro l
    induction l with
    | nil => simp [getlineChars]
    | cons c cs ih =>
      by_cases hc : c = delim
      · simp [getlineChars, hc]
      · simp [getlineChars, hc]
        omega
  unfold getline at h ⊢
  by_cases hs : (os.eofbit || os.failbit) = true
  · simp [hs, istringstream.ok] at h
  · simp only [hs] at h ⊢
    cases hb : os.buf with
    | nil => simp [hb, istringstream.ok, getlineChars] at h
    | cons c cs =>
      have := hle (c :: cs)
      by_cases hc : c = delim
      · simp [getlineChars, hc]
      · have := hle cs
        simp [getlineChars, hc]
        omega

/-- Function `std::vector<std::string> split(const std::string& str, char delim)`. -/
def split (str : List Char) (delim : Char) : List (List Char) :=
  splitLoop delim (istringstream.new str) [] []

/-- Library call `std::isspace` in the default "C" locale: space, `\t`, `\n`,
`\v`, `\f`, `\r`. -/
def isspace (c : Char) : Bool :=
  c = ' ' || c = '\t' || c = '\n' || c = '\x0b' || c = '\x0c' || c = '\r'

/-- First loop of `trim`, the iterator `it` being an offset from `str.cbegin()`:
```
while (it != str.cend() && std::isspace(*it)) { ++it; }
``` -/
def trimFwd (str : List Char) (it : ℕ) : ℕ :=
  if h : it < str.length then
    if isspace (str.get ⟨it, h⟩) then trimFwd str (it + 1) else it
  else it
termination_by str.length - it

/-- Second loop of `trim`; the last argument is `rit.base()` as an offset from
`str.cbegin()`, so that `*rit` is the character just before it:
```
while (rit.base() != it && std::isspace(*rit)) { ++rit; }
``` -/
def trimBwd (str : List Char) (it : ℕ) : ℕ → ℕ
  | 0 => 0
  | b + 1 =>
    if b + 1 ≠ it ∧ (str[b]?).any isspace then trimBwd str it b else b + 1

/-- Function `std::string trim(const std::string& str)`; the result is
`std::string(it, rit.base())`. -/
def trim (str : List Char) : List Char :=
  let it := trimFwd str 0
  let base := trimBwd str it str.length
  (str.drop it).take (base - it)

/-- Specification side of `split`: the maximal `delim`-free pieces of a string,
in order; there is one more piece than there are delimiters, so the empty
string has the single piece `[]`. -/
def pieces (delim : Char) : List Char → List (List Char)
  | [] => [[]]
  | c :: cs =>
    if c = delim then [] :: pieces delim cs
    else
      match pieces delim cs with
      | p :: ps => (c :: p) :: ps
      | [] => [[c]]

/-- Specification side of `split`: a list of pieces without its last piece when
that piece is empty. -/
def dropEmptyLast (ps : List (List Char)) : List (List Char) :=
  if ps.getLast? = some [] then ps.dropLast else ps

/-- The exception type `check_error`, carrying `what_arg`. -/
structure check_error where
  what_arg : String

/-- Method `check_error::what()`. -/
def check_error.what (e : check_error) : String := e.what_arg

namespace Color

/-- Terminal modifier `Color::Default()`. -/
def Default : String := "\x1b[0m"

/-- Terminal modifier `Color::Red()`. -/
def Red : String := "\x1b[0;31m"

/-- Terminal modifier `Color::Blue()`. -/
def Blue : String := "\x1b[0;34m"

end Color

/-- Macro `CHECK(cond)`.  `condText`, `file` and `line` stand for `#cond`,
`__FILE__` and `__LINE__`.  A `throw` is `Except.error`, falling through the
`do { } while (false)` is `Except.ok ()`. -/
def CHECK (cond : Bool) (condText file : String) (line : ℕ) : Except check_error Unit :=
  if !cond then
    let os := Color.Red ++ "Error: " ++ Color.Default ++ condText ++ "\n"
    let os := os ++ Color.Red ++ "File: " ++ Color.Default ++ file ++ "\n"
    let os := os ++ Color.Red ++ "Line: " ++ Color.Default ++ toString line ++ "\n"
    Except.error (check_error.mk os)
  else
    Except.ok ()

/-- Helper macro `__CHECK_COND(cond, a, b)`; `aText`, `bText` stand for `#a`,
`#b`, and `aOut`, `bOut` for what `<< (a)` and `<< (b)` write. -/
def __CHECK_COND (cond : Bool) (condText aText bText aOut bOut file : String) (line : ℕ) :
    Except check_error Unit :=
  if !cond then
    let os := Color.Red ++ "Error: " ++ Color.Default ++ condText ++ "\n"
    let os := os ++ Color.Red ++ "File: " ++ Color.Default ++ file ++ "\n"
    let os := os ++ Color.Red ++ "Line: " ++ Color.Default ++ toString line ++ "\n"
    let os := os ++ Color.Blue ++ aText ++ Color.Default ++ " = " ++ aOut ++ "\n"
    let os := os ++ Color.Blue ++ bText ++ Color.Default ++ " = " ++ bOut ++ "\n"
    Except.error (check_error.mk os)
  else
    Except.ok ()

section checks

variable {α : Type} [DecidableEq α] [LT α] [LE α]
  [DecidableRel (fun x y : α => x < y)] [DecidableRel (fun x y : α => x ≤ y)]
  [ToString α]

/-- Macro `CHECK_EQ(a, b)`, with `std::equal_to<>()(a, b)` being `a == b`. -/
def CHECK_EQ (a b : α) (aText bText file : String) (line : ℕ) : Except check_error Unit :=
  __CHECK_COND (decide (a = b)) ("std::equal_to<>()(" ++ aText ++ ", " ++ bText ++ ")")
    aText bText (toString a) (toString b) file line

/-- Macro `CHECK_NE(a, b)`, with `std::not_equal_to<>()(a, b)` being `a != b`. -/
def CHECK_NE (a b : α) (aText bText file : String) (line : ℕ) : Except check_error Unit :=
  __CHECK_COND (decide (a ≠ b)) ("std::not_equal_to<>()(" ++ aText ++ ", " ++ bText ++ ")")
    aText bText (toString a) (toString b) file line

/-- Macro `CHECK_GT(a, b)`, with `std::greater<>()(a, b)` being `a > b`. -/
def CHECK_GT (a b : α) (aText bText file : String) (line : ℕ) : Except check_error Unit :=
  __CHECK_COND (decide (a > b)) ("std::greater<>()(" ++ aText ++ ", " ++ bText ++ ")")
    aText bText (toString a) (toString b) file line

/-- Macro `CHECK_GE(a, b)`, with `std::greater_equal<>()(a, b)` being `a >= b`. -/
def CHECK_GE (a b : α) (aText bText file : String) (line : ℕ) : Except check_error Unit :=
  __CHECK_COND (decide (a ≥ b)) ("std::greater_equal<>()(" ++ aText ++ ", " ++ bText ++ ")")
    aText bText (toString a) (toString b) file line

/-- Macro `CHECK_LT(a, b)`, with `std::less<>()(a, b)` being `a < b`. -/
def CHECK_LT (a b : α) (aText bText file : String) (line : ℕ) : Except check_error Unit :=
  __CHECK_COND (decide (a < b)) ("std::less<>()(" ++ aText ++ ", " ++ bText ++ ")")
    aText bText (toString a) (toString b) file line

/-- Macro `CHECK_LE(a, b)`, with `std::less_equal<>()(a, b)` being `a <= b`. -/
def CHECK_LE (a b : α) (aText bText file : String) (line : ℕ) : Except check_error Unit :=
  __CHECK_COND (decide (a ≤ b)) ("std::less_equal<>()(" ++ aText ++ ", " ++ bText ++ ")")
    aText bText (toString a) (toString b) file line

end checks

/-- Whether a macro expansion threw `check_error`. -/
def throws (r : Except check_error Unit) : Bool :=
  match r with
  | Except.error _ => true
  | Except.ok _ => false

end test

/-! ## `general.hpp` -/

namespace general

/-- The loop of `print` over the range `[beg, end)` still to be written, with
`last = std::prev(end)`; `beg != last` holds exactly while at least two
elements remain.  `fmt x` is what `os << x` writes for an element.
```
while (beg != last) {
    os << *beg++ << separator;
}
```
The result is the stream together with the range `[last, end)`. -/
def printLoop {α : Type} (fmt : α → String) (separator : String) :
    String → List α → String × List α
  | os, x :: y :: rest => printLoop fmt separator (os ++ fmt x ++ separator) (y :: rest)
  | os, r => (os, r)

/-- Function `general::print(os, beg, end, encloser, separator)`; the range
`[beg, end)` is a list and `encloser[0]`, `encloser[1]` are `c0`, `c1`.  The
result is the content of `os` afterwards. -/
def print {α : Type} (fmt : α → String) (os : String) (range : List α)
    (c0 c1 : Char) (separator : String) : String :=
  let os := os.push c0
  let os :=
    if range.length > 0 then
      let r := printLoop fmt separator os range
      match r.2 with
      | last :: _ => r.1 ++ fmt last
      | [] => r.1
    else os
  os.push c1

/-- Call of `print` with the default arguments `encloser = "{}"` and
`separator = ", "`. -/
def printDefault {α : Type} (fmt : α → String) (os : String) (range : List α) : String :=
  print fmt os range '{' '}' ", "

end general

/-! ## `MouseController.hpp`

The header declares the class; the bodies of `_change_coeff`,
`get_keystroke_once` and `Options::check` are not part of it.  The constant
`_att_mult_dflt`, the member defaults of `Options` and the documented ranges
are taken from the header, the bodies from the specification.  `int` is `ℤ` and
`double` is `ℚ`. -/

namespace MouseController

/-- Constant `static constexpr double _att_mult_dflt = 0.0001`. -/
def _att_mult_dflt : ℚ := 1 / 10000

/-- The nested struct `Options`. -/
structure Options where
  multiplier : ℤ
  thr_coeff : ℤ
  yaw_coeff : ℤ
  speedup : ℤ
  throttle_stable : ℤ
  pitch_stable : ℚ
  roll_stable : ℚ

/-- Constructor `Options() { }` with the default member initialisers of the
header. -/
def Options.new : Options :=
  { multiplier := 10, thr_coeff := 5, yaw_coeff := 10, speedup := 25,
    throttle_stable := 50, pitch_stable := 0, roll_stable := 0 }

/-- Modelled from the spec: the body of `Options::check()` is missing.  The
specification has `check()` accept exactly the options whose values are all
within their documented ranges; the ranges that are documented are
`throttle_stable` in 0-100 and a sensitivity (multiplier) of at least 1. -/
def Options.check (opt : Options) : Bool :=
  decide (0 ≤ opt.throttle_stable ∧ opt.throttle_stable ≤ 100) && decide (1 ≤ opt.multiplier)

/-- Modelled from the spec: the body of `_change_coeff` is missing.  The
sensitivity is adjusted by `diff`, clamped to a minimum of 1, and both rates
are recomputed as sensitivity times the base rate.  The three results are the
new `*mult`, `*pitch_coeff` and `*roll_coeff`. -/
def _change_coeff (diff : ℤ) (mult : ℤ) (_pitch_coeff _roll_coeff : ℚ) : ℤ × ℚ × ℚ :=
  let mult1 := max 1 (mult + diff)
  (mult1, (mult1 : ℚ) * _att_mult_dflt, (mult1 : ℚ) * _att_mult_dflt)

/-- The throttle and heading keys `get_keystroke_once` reacts to, as documented
in the header (`W`, `S`, `A`, `D`), and any key code the controller does not
own.  The stabilize key (SPACE) is not among them: its step rule is not
embedded. -/
inductive Key where
  | throttle_up
  | throttle_down
  | heading_decrease
  | heading_increase
  | other (code : ℕ)
  deriving DecidableEq

/-- The members of `MouseController` that key presses read or write: the
constants `thr_coeff`, `yaw_coeff`, `speedup`, `throttle_stable` and the state
`_throttle`, `_heading`. -/
structure State where
  thr_coeff : ℤ
  yaw_coeff : ℤ
  speedup : ℤ
  throttle_stable : ℤ
  _throttle : ℤ
  _heading : ℤ
  deriving DecidableEq

/-- Modelled from the spec: clamping of a throttle value into the range 0-100. -/
def clamp_throttle (t : ℤ) : ℤ := max 0 (min 100 t)

/-- Modelled from the spec: wrapping of a heading into `[0,360)`, modulo 360. -/
def wrap_heading (h : ℤ) : ℤ := h % 360

/-- Modelled from the spec: the body of `get_keystroke_once` is missing.  One
key is taken and applied: a throttle key adjusts the throttle by the step
`thr_coeff`, clamped into 0-100; a heading key adjusts the heading by the step
`yaw_coeff`, wrapped into `[0,360)`; a key the controller does not own changes
nothing.  The pressed key is returned.  (The stabilize key, pitch and roll are
not modelled.) -/
def get_keystroke_once (m : State) (key : Key) : State × Key :=
  match key with
  | Key.throttle_up => ({ m with _throttle := clamp_throttle (m._throttle + m.thr_coeff) }, key)
  | Key.throttle_down => ({ m with _throttle := clamp_throttle (m._throttle - m.thr_coeff) }, key)
  | Key.heading_increase => ({ m with _heading := wrap_heading (m._heading + m.yaw_coeff) }, key)
  | Key.heading_decrease => ({ m with _heading := wrap_heading (m._heading - m.yaw_coeff) }, key)
  | Key.other _ => (m, key)

/-- Accessor `get_throttle()`. -/
def get_throttle (m : State) : ℤ := m._throttle

/-- Accessor `get_heading()`. -/
def get_heading (m : State) : ℤ := m._heading

end MouseController

/-! ## Theorems -/

namespace Ortalama

theorem addAll_append (o : Ortalama) (xs : List ℚ) (x : ℚ) :
    addAll o (xs ++ [x]) = add (addAll o xs) x := by
  simp [addAll, List.foldl_append]

/-- Effect of one `add` on an object whose average is the mean of its queue. -/
theorem add_spec (o : Ortalama) (x : ℚ) (hN : 0 < o._N) (hlen : o._list.length ≤ o._N)
    (hort : o._list ≠ [] → o._ort = o._list.sum / (o._list.length : ℕ)) :
    (add o x)._N = o._N ∧
    (add o x)._list = (o._list ++ [x]).drop (o._list.length + 1 - o._N) ∧
    (add o x)._ort = (add o x)._list.sum / ((add o x)._list.length : ℕ) := by
  have hmul : o._ort * (o._list.length : ℕ) = o._list.sum := by
    by_cases hne : o._list = []
    · simp [hne]
    · have hpos : ((o._list.length : ℕ) : ℚ) ≠ 0 := by
        have : o._list.length ≠ 0 := fun h => hne (List.length_eq_zero.mp h)
        exact_mod_cast this
      rw [hort hne]
      field_simp
  have hp1 : (((o._list.length + 1 : ℕ)) : ℚ) ≠ 0 := by
    exact_mod_cast Nat.succ_ne_zero o._list.length
  by_cases hgt : (o._list ++ [x]).length > o._N
  · have hlenN : o._list.length = o._N := by
      simp at hgt
      omega
    cases hl : o._list ++ [x] with
    | nil => simp at hl
    | cons front rest =>
      have hrest : rest.length = o._list.length := by
        have := congrArg List.length hl
        simp at this
        omega
      have hsum : o._list.sum + x = front + rest.sum := by
        have := congrArg List.sum hl
        simpa using this
      have hlpos : ((o._list.length : ℕ) : ℚ) ≠ 0 := by
        have : o._list.length ≠ 0 := by omega
        exact_mod_cast this
      have hadd : add o x = { o with
          _ort := ((o._ort * (o._list.length : ℕ) + x) / ((o._list.length + 1 : ℕ) : ℚ)
            * ((front :: rest).length : ℕ) - front) / (((front :: rest).length - 1 : ℕ) : ℚ)
          _list := rest } := by
        unfold add
        simp only [hl] at hgt ⊢
        simp only [hgt, if_true]
      rw [hadd]
      refine ⟨rfl, ?_, ?_⟩
      · simp only [hl]
        have : o._list.length + 1 - o._N = 1 := by omega
        rw [this]
        rfl
      · simp only [List.length_cons, hrest, Nat.add_sub_cancel, hmul]
        rw [div_mul_cancel₀ _ hp1, hsum]
        congr 1
        ring
  · have hadd : add o x = { o with
        _list := o._list ++ [x]
        _ort := (o._ort * (o._list.length : ℕ) + x) / ((o._list.length + 1 : ℕ) : ℚ) } := by
      unfold add
      simp only [hgt, if_false]
    rw [hadd]
    refine ⟨rfl, ?_, ?_⟩
    · have : o._list.length + 1 - o._N = 0 := by
        simp at hgt
        omega
      simp [this]
    · simp only [hmul, List.sum_append, List.sum_singleton, List.length_append,
        List.length_singleton]

/-- Invariant of a freshly constructed object after any sequence of `add`s:
the queue holds the last `min k N` values and, when it is not empty, `_ort` is
its mean. -/
theorem addAll_inv (N : ℕ) (hN : 0 < N) (xs : List ℚ) :
    (addAll { _list := [], _N := N, _ort := 0 } xs)._N = N ∧
    (addAll { _list := [], _N := N, _ort := 0 } xs)._list = xs.drop (xs.length - N) ∧
    ((addAll { _list := [], _N := N, _ort := 0 } xs)._list ≠ [] →
      (addAll { _list := [], _N := N, _ort := 0 } xs)._ort =
        (addAll { _list := [], _N := N, _ort := 0 } xs)._list.sum /
          ((addAll { _list := [], _N := N, _ort := 0 } xs)._list.length : ℕ)) := by
  induction xs using List.reverseRecOn with
  | nil => simp [addAll]
  | append_singleton xs x ih =>
    obtain ⟨h1, h2, h3⟩ := ih
    rw [addAll_append]
    have hlen : (addAll { _list := [], _N := N, _ort := 0 } xs)._list.length ≤
        (addAll { _list := [], _N := N, _ort := 0 } xs)._N := by
      rw [h1, h2, List.length_drop]
      omega
    obtain ⟨g1, g2, g3⟩ := add_spec (addAll { _list := [], _N := N, _ort := 0 } xs) x
      (by rw [h1]; exact hN) hlen h3
    refine ⟨by rw [g1, h1], ?_, fun _ => g3⟩
    rw [g2, h1, h2, List.length_drop, List.length_append, List.length_singleton]
    by_cases hk : xs.length < N
    · have e1 : xs.length - N = 0 := by omega
      have e2 : xs.length - (xs.length - N) + 1 - N = 0 := by omega
      have e3 : xs.length + 1 - N = 0 := by omega
      simp [e1, e2, e3]
    · have e2 : xs.length - (xs.length - N) + 1 - N = 1 := by omega
      have e3 : xs.length + 1 - N = (xs.length - N) + 1 := by omega
      have hL : 1 ≤ (List.drop (xs.length - N) xs).length := by
        rw [List.length_drop]
        omega
      have hR : xs.length - N + 1 ≤ xs.length := by omega
      rw [e2, e3, List.drop_append_of_le_length hL, List.drop_append_of_le_length hR,
        List.drop_drop]

end Ortalama

/-- C1. Rolling average over the rationals: for a window size `N > 0` and any
non-empty sequence `xs` of `k` values, after `add` has been called on each value
of `xs` in order on a freshly constructed `Ortalama(N)`, the value read through
`ortalama` is the sum of the last `min k N` values of `xs` divided by
`min k N`. -/
theorem C1_rolling_average (N : ℕ) (hN : 0 < N) (xs : List ℚ) (hxs : xs ≠ []) :
    ∃ o, Ortalama.new N = some o ∧
      (Ortalama.addAll o xs).ortalama =
        (xs.drop (xs.length - min xs.length N)).sum / ((min xs.length N : ℕ) : ℚ) := by
  refine ⟨{ _list := [], _N := N, _ort := 0 }, by simp [Ortalama.new, hN], ?_⟩
  obtain ⟨_, h2, h3⟩ := Ortalama.addAll_inv N hN xs
  have hk : 0 < xs.length := List.length_pos.mpr hxs
  have hd : xs.length - min xs.length N = xs.length - N := by omega
  have hl : (xs.drop (xs.length - N)).length = min xs.length N := by
    rw [List.length_drop]
    omega
  have hne : (Ortalama.addAll { _list := [], _N := N, _ort := 0 } xs)._list ≠ [] := by
    rw [h2]
    intro h
    rw [h] at hl
    simp at hl
    omega
  rw [Ortalama.ortalama, h3 hne, h2, hl, hd]

/-- C1, at the window size 2 and the values 1, 2, 4, 7: the average read is
(4 + 7) / 2. -/
theorem C1_rolling_average_witness :
    0 < 2 ∧ ([1, 2, 4, 7] : List ℚ) ≠ [] ∧
    ∃ o, Ortalama.new 2 = some o ∧
      (Ortalama.addAll o [1, 2, 4, 7]).ortalama =
        (([1, 2, 4, 7] : List ℚ).drop
          (([1, 2, 4, 7] : List ℚ).length - min ([1, 2, 4, 7] : List ℚ).length 2)).sum /
          ((min ([1, 2, 4, 7] : List ℚ).length 2 : ℕ) : ℚ) :=
  ⟨by decide, by simp, C1_rolling_average 2 (by decide) [1, 2, 4, 7] (by simp)⟩

namespace test

theorem pieces_ne_nil (d : Char) (s : List Char) : pieces d s ≠ [] := by
  cases s with
  | nil => simp [pieces]
  | cons c cs =>
    by_cases h : c = d
    · simp [pieces, h]
    · simp only [pieces, h, if_false]
      split <;> simp

theorem pieces_no_delim (d : Char) (s : List Char) (h : d ∉ s) : pieces d s = [s] := by
  induction s with
  | nil => rfl
  | cons c cs ih =>
    have hc : c ≠ d := fun e => h (by simp [e])
    have hcs : d ∉ cs := fun e => h (List.mem_cons_of_mem _ e)
    simp [pieces, hc, ih hcs]

theorem pieces_append_delim (d : Char) (t rest : List Char) (h : d ∉ t) :
    pieces d (t ++ d :: rest) = t :: pieces d rest := by
  induction t with
  | nil => simp [pieces]
  | cons c cs ih =>
    have hc : c ≠ d := fun e => h (by simp [e])
    have hcs : d ∉ cs := fun e => h (List.mem_cons_of_mem _ e)
    simp [pieces, hc, ih hcs]

theorem pieces_free (d : Char) (s : List Char) : ∀ p ∈ pieces d s, d ∉ p := by
  induction s with
  | nil => simp [pieces]
  | cons c cs ih =>
    by_cases h : c = d
    · intro p hp
      simp only [pieces, h, if_true, List.mem_cons] at hp
      rcases hp with rfl | hp
      · simp
      · exact ih p hp
    · intro p hp
      simp only [pieces, h, if_false] at hp
      cases hq : pieces d cs with
      | nil => exact absurd hq (pieces_ne_nil d cs)
      | cons q qs =>
        rw [hq] at hp ih
        simp only [List.mem_cons] at hp
        rcases hp with rfl | hp
        · have hq' : d ∉ q := ih q (by simp)
          intro hm
          simp only [List.mem_cons] at hm
          rcases hm with e | hm
          · exact h e.symm
          · exact hq' hm
        · exact ih p (by simp [hp])

theorem pieces_intercalate (d : Char) (s : List Char) :
    List.intercalate [d] (pieces d s) = s := by
  induction s with
  | nil => simp [pieces, List.intercalate]
  | cons c cs ih =>
    by_cases h : c = d
    · cases hq : pieces d cs with
      | nil => exact absurd hq (pieces_ne_nil d cs)
      | cons q qs =>
        rw [hq] at ih
        simp only [pieces, h, if_true, hq]
        rw [List.intercalate, List.intersperse_cons_cons, List.flatten_cons, List.flatten_cons]
        rw [List.intercalate] at ih
        simp [ih]
    · cases hq : pieces d cs with
      | nil => exact absurd hq (pieces_ne_nil d cs)
      | cons q qs =>
        rw [hq] at ih
        simp only [pieces, h, if_false, hq]
        cases qs with
        | nil =>
          simp [List.intercalate] at ih ⊢
          exact ih
        | cons q2 qs2 =>
          rw [List.intercalate, List.intersperse_cons_cons, List.flatten_cons] at ih ⊢
          rw [List.cons_append, ih]

theorem getlineChars_eof (d : Char) (s : List Char) (h : (getlineChars d s).2.2 = true) :
    d ∉ s ∧ (getlineChars d s).1 = s ∧ (getlineChars d s).2.1 = [] := by
  induction s with
  | nil => simp [getlineChars]
  | cons c cs ih =>
    by_cases hc : c = d
    · simp [getlineChars, hc] at h
    · simp only [getlineChars, hc, if_false] at h ⊢
      obtain ⟨h1, h2, h3⟩ := ih h
      refine ⟨?_, by rw [h2], h3⟩
      simp only [List.mem_cons, not_or]
      exact ⟨fun e => hc e.symm, h1⟩

theorem getlineChars_delim (d : Char) (s : List Char) (h : (getlineChars d s).2.2 = false) :
    d ∉ (getlineChars d s).1 ∧
      s = (getlineChars d s).1 ++ d :: (getlineChars d s).2.1 := by
  induction s with
  | nil => simp [getlineChars] at h
  | cons c cs ih =>
    by_cases hc : c = d
    · simp [getlineChars, hc]
    · simp only [getlineChars, hc, if_false] at h ⊢
      obtain ⟨h1, h2⟩ := ih h
      refine ⟨?_, ?_⟩
      · simp only [List.mem_cons, not_or]
        exact ⟨fun e => hc e.symm, h1⟩
      · rw [List.cons_append, ← h2]

/-- Once `eofbit` or `failbit` is set the loop of `split` stops at once. -/
theorem splitLoop_not_good (d : Char) (os : istringstream) (temp : List Char)
    (res : List (List Char)) (h : (os.eofbit || os.failbit) = true) :
    splitLoop d os temp res = res := by
  rw [splitLoop]
  simp [getline, h, istringstream.ok]

theorem dropEmptyLast_cons (t : List Char) (ps : List (List Char)) (h : ps ≠ []) :
    dropEmptyLast (t :: ps) = t :: dropEmptyLast ps := by
  cases ps with
  | nil => exact absurd rfl h
  | cons q qs =>
    unfold dropEmptyLast
    rw [List.getLast?_cons_cons, List.dropLast_cons₂]
    split <;> rfl

/-- The loop of `split` on a good stream appends the pieces of the unread text,
without an empty last piece. -/
theorem splitLoop_good (d : Char) :
    ∀ (n : ℕ) (b temp : List Char) (res : List (List Char)), b.length ≤ n →
      splitLoop d { buf := b, eofbit := false, failbit := false } temp res =
        res ++ dropEmptyLast (pieces d b) := by
  intro n
  induction n with
  | zero =>
    intro b temp res hb
    have hb0 : b = [] := List.length_eq_zero.mp (Nat.le_zero.mp hb)
    subst hb0
    rw [splitLoop]
    simp [getline, getlineChars, istringstream.ok, pieces, dropEmptyLast]
  | succ n ih =>
    intro b temp res hb
    cases b with
    | nil =>
      rw [splitLoop]
      simp [getline, getlineChars, istringstream.ok, pieces, dropEmptyLast]
    | cons c cs =>
      rw [splitLoop]
      cases he : (getlineChars d (c :: cs)).2.2 with
      | true =>
        obtain ⟨h1, h2, h3⟩ := getlineChars_eof d (c :: cs) he
        have hg : getline { buf := c :: cs, eofbit := false, failbit := false } temp d =
            ({ buf := [], eofbit := true, failbit := false }, c :: cs) := by
          simp [getline, he, h2, h3]
        simp only [hg, istringstream.ok, Bool.not_false, dif_pos]
        rw [splitLoop_not_good d _ _ _ (by simp), pieces_no_delim d _ h1]
        simp [dropEmptyLast]
      | false =>
        obtain ⟨h1, h2⟩ := getlineChars_delim d (c :: cs) he
        have hg : getline { buf := c :: cs, eofbit := false, failbit := false } temp d =
            ({ buf := (getlineChars d (c :: cs)).2.1, eofbit := false, failbit := false },
              (getlineChars d (c :: cs)).1) := by
          simp [getline, he]
        have hlen : (getlineChars d (c :: cs)).2.1.length ≤ n := by
          have := congrArg List.length h2
          simp only [List.length_cons, List.length_append] at this hb
          omega
        simp only [hg, istringstream.ok, Bool.not_false, dif_pos]
        rw [ih _ _ _ hlen]
        conv_rhs => rw [h2, pieces_append_delim d _ _ h1,
          dropEmptyLast_cons _ _ (pieces_ne_nil d _)]
        simp

theorem split_eq (s : List Char) (d : Char) : split s d = dropEmptyLast (pieces d s) := by
  rw [split, istringstream.new, splitLoop_good d s.length s [] [] le_rfl]
  simp

end test

/-- C2. `split` cuts at the delimiter: for every string `s` and character `d`
there is a list `ps` of pieces such that no piece contains `d`, joining the
pieces with `d` between them gives back `s`, and `split s d` is `ps` without
its last piece when that piece is empty (and all of `ps` otherwise); these
pieces are the ones `List.splitOn` cuts `s` into at `d`.  Hence no returned
element contains `d`, `split "" d` is empty, and `split "this is a test" ' '`
is `["this", "is", "a", "test"]`. -/
theorem C2_split_pieces (s : List Char) (d : Char) :
    (∃ ps : List (List Char),
      (∀ p ∈ ps, d ∉ p) ∧ List.intercalate [d] ps = s ∧
      test.split s d = if ps.getLast? = some [] then ps.dropLast else ps) ∧
    (test.split s d =
      if (s.splitOn d).getLast? = some [] then (s.splitOn d).dropLast else s.splitOn d) ∧
    (∀ p ∈ test.split s d, d ∉ p) ∧
    test.split [] d = [] ∧
    test.split "this is a test".toList ' ' =
      ["this".toList, "is".toList, "a".toList, "test".toList] := by
  have hsp : s.splitOn d = test.pieces d s := by
    conv_lhs => rw [← test.pieces_intercalate d s]
    exact List.splitOn_intercalate _ d (test.pieces_free d s) (test.pieces_ne_nil d s)
  refine ⟨⟨test.pieces d s, test.pieces_free d s, test.pieces_intercalate d s, ?_⟩,
    ?_, ?_, ?_, ?_⟩
  · rw [test.split_eq]
    rfl
  · rw [test.split_eq, hsp]
    rfl
  · intro p hp
    rw [test.split_eq, test.dropEmptyLast] at hp
    split at hp
    · exact test.pieces_free d s p (List.mem_of_mem_dropLast hp)
    · exact test.pieces_free d s p hp
  · rw [test.split_eq]
    rfl
  · rw [test.split_eq]
    decide

namespace test

theorem drop_length_takeWhile (p : Char → Bool) (s : List Char) :
    s.drop (s.takeWhile p).length = s.dropWhile p := by
  induction s with
  | nil => rfl
  | cons c cs ih =>
    by_cases h : p c = true
    · simp [List.takeWhile_cons, List.dropWhile_cons, h, ih]
    · simp [List.takeWhile_cons, List.dropWhile_cons, h]

/-- The first loop of `trim` stops after the whitespace run that starts at `it`. -/
theorem trimFwd_eq (s : List Char) :
    ∀ (n it : ℕ), s.length - it = n →
      trimFwd s it = it + ((s.drop it).takeWhile isspace).length := by
  intro n
  induction n with
  | zero =>
    intro it h
    rw [trimFwd]
    have hlt : ¬ it < s.length := by omega
    have hd : s.drop it = [] := List.drop_eq_nil_of_le (by omega)
    rw [dif_neg hlt, hd]
    rfl
  | succ n ih =>
    intro it h
    have hlt : it < s.length := by omega
    rw [trimFwd]
    have hd : s.drop it = s.get ⟨it, hlt⟩ :: s.drop (it + 1) :=
      List.drop_eq_getElem_cons hlt
    simp only [hlt, dif_pos]
    by_cases hsp : isspace (s.get ⟨it, hlt⟩) = true
    · simp only [hsp, if_true]
      rw [ih (it + 1) (by omega), hd, List.takeWhile_cons_of_pos hsp, List.length_cons]
      omega
    · simp only [hsp]
      rw [hd, List.takeWhile_cons_of_neg hsp]
      simp

/-- The second loop of `trim` removes the whitespace run that ends at `b`,
without going below `it`. -/
theorem trimBwd_spec (s : List Char) (it : ℕ) :
    ∀ b : ℕ, it ≤ b → b ≤ s.length →
      it ≤ trimBwd s it b ∧
      (s.drop it).take (trimBwd s it b - it) =
        List.rdropWhile isspace ((s.drop it).take (b - it)) := by
  intro b
  induction b with
  | zero =>
    intro h1 _
    have : it = 0 := by omega
    subst this
    simp [trimBwd]
  | succ b ih =>
    intro h1 h2
    have hb : b < s.length := by omega
    by_cases he : b + 1 = it
    · have hz : b + 1 - it = 0 := by omega
      simp [trimBwd, he]
    · have hle : it ≤ b := by omega
      have htake : (s.drop it).take (b + 1 - it) = (s.drop it).take (b - it) ++ [s[b]] := by
        have e : b + 1 - it = (b - it) + 1 := by omega
        have hi : it + (b - it) = b := by omega
        rw [e, List.take_succ, List.getElem?_drop]
        simp [hi, List.getElem?_eq_getElem hb]
      have hget : s[b]? = some s[b] := List.getElem?_eq_getElem hb
      by_cases hsp : isspace s[b] = true
      · have hstep : trimBwd s it (b + 1) = trimBwd s it b := by
          rw [trimBwd, hget]
          simp [he, hsp]
        rw [hstep, htake, List.rdropWhile_concat_pos _ _ _ hsp]
        exact ih hle (by omega)
      · have hstep : trimBwd s it (b + 1) = b + 1 := by
          rw [trimBwd, hget]
          simp [hsp]
        rw [hstep, htake, List.rdropWhile_concat_neg _ _ _ hsp]
        exact ⟨h1, rfl⟩

theorem trim_eq (s : List Char) :
    trim s = List.rdropWhile isspace (s.dropWhile isspace) := by
  have hf : trimFwd s 0 = (s.takeWhile isspace).length := by
    rw [trimFwd_eq s s.length 0 rfl]
    simp
  have hle : (s.takeWhile isspace).length ≤ s.length :=
    (List.takeWhile_prefix isspace).length_le
  obtain ⟨_, h2⟩ := trimBwd_spec s (s.takeWhile isspace).length s.length hle le_rfl
  unfold trim
  simp only [hf]
  rw [h2, drop_length_takeWhile]
  congr 1
  apply List.take_of_length_le
  rw [← drop_length_takeWhile, List.length_drop]

end test

/-- C3. `trim` removes leading and trailing whitespace: for every string `s`,
`trim s` is `s` with its longest all-whitespace prefix removed and then the
longest all-whitespace suffix of what is left removed (so interior whitespace
is kept); the result neither starts nor ends with a whitespace character; and
a string made only of whitespace, the empty string included, gives the empty
string. -/
theorem C3_trim_whitespace (s : List Char) :
    test.trim s = ((s.dropWhile test.isspace).reverse.dropWhile test.isspace).reverse ∧
    (∀ c, (test.trim s).head? = some c → test.isspace c = false) ∧
    (∀ c, (test.trim s).getLast? = some c → test.isspace c = false) ∧
    ((∀ c ∈ s, test.isspace c = true) → test.trim s = []) := by
  have heq := test.trim_eq s
  refine ⟨by rw [heq]; rfl, ?_, ?_, ?_⟩
  · intro c hc
    have hpre : test.trim s <+: s.dropWhile test.isspace := by
      rw [heq]
      exact List.rdropWhile_prefix test.isspace _
    obtain ⟨t, ht⟩ := hpre
    cases htr : test.trim s with
    | nil => simp [htr] at hc
    | cons a as =>
      rw [htr] at hc ht
      simp only [List.head?_cons, Option.some.injEq] at hc
      subst hc
      have h := List.head?_dropWhile_not test.isspace s
      rw [← ht] at h
      simpa using h
  · intro c hc
    have hne : List.rdropWhile test.isspace (s.dropWhile test.isspace) ≠ [] := by
      rw [← heq]
      intro h
      simp [h] at hc
    have h := List.rdropWhile_last_not test.isspace (s.dropWhile test.isspace) hne
    rw [heq, List.getLast?_eq_getLast _ hne] at hc
    simp only [Option.some.injEq] at hc
    rw [hc] at h
    simpa using h
  · intro h
    rw [heq, (List.dropWhile_eq_nil_iff).mpr h]
    rfl

namespace general

theorem intercalate_go_append (sep : String) :
    ∀ (l : List String) (a b : String),
      String.intercalate.go (a ++ b) sep l = a ++ String.intercalate.go b sep l := by
  intro l
  induction l with
  | nil => intro a b; rfl
  | cons y l ih =>
    intro a b
    simp only [String.intercalate.go]
    rw [String.append_assoc, String.append_assoc, ih, ← String.append_assoc]

/-- What the loop of `print` leaves, followed by `os << *last`, on a non-empty
range. -/
theorem printLoop_spec {α : Type} (fmt : α → String) (sep : String) :
    ∀ (rest : List α) (os : String) (x : α),
      (match (printLoop fmt sep os (x :: rest)).2 with
        | last :: _ => (printLoop fmt sep os (x :: rest)).1 ++ fmt last
        | [] => (printLoop fmt sep os (x :: rest)).1) =
      os ++ String.intercalate.go (fmt x) sep (rest.map fmt) := by
  intro rest
  induction rest with
  | nil => intro os x; rfl
  | cons y r ih =>
    intro os x
    simp only [printLoop, List.map_cons, String.intercalate.go]
    rw [ih (os ++ fmt x ++ sep) y, intercalate_go_append sep _ (fmt x ++ sep) (fmt y)]
    simp only [String.append_assoc]

end general

/-- C4. `print` writes a delimited range: for every range, enclosers `c0`, `c1`
and separator, the stream receives `c0`, then the elements with the separator
between consecutive elements only, then `c1`; for the empty range it receives
exactly `c0 c1`; and the range 1, 2, 3 with the default arguments is written
as `{1, 2, 3}`. -/
theorem C4_print_delimited {α : Type} (fmt : α → String) (os : String) (range : List α)
    (c0 c1 : Char) (separator : String) :
    general.print fmt os range c0 c1 separator =
      ((os.push c0) ++ separator.intercalate (range.map fmt)).push c1 ∧
    general.print fmt os [] c0 c1 separator = (os.push c0).push c1 ∧
    general.printDefault (fun n : ℤ => toString n) "" [1, 2, 3] = "\x7b1, 2, 3\x7d" := by
  refine ⟨?_, ?_, ?_⟩
  · cases range with
    | nil => simp [general.print, String.intercalate]
    | cons x rest =>
      simp only [general.print, List.length_cons, Nat.succ_pos, if_true, gt_iff_lt,
        List.map_cons, String.intercalate]
      rw [general.printLoop_spec]
  · simp [general.print]
  · decide

namespace test

theorem CHECK_COND_throws (cond : Bool) (condText aText bText aOut bOut file : String)
    (line : ℕ) :
    (throws (__CHECK_COND cond condText aText bText aOut bOut file line) = true ↔
      cond = false) ∧
    (__CHECK_COND cond condText aText bText aOut bOut file line = Except.ok () ↔
      cond = true) := by
  cases cond <;> simp [__CHECK_COND, throws]

end test

/-- C5. The `CHECK` macros throw exactly when the condition is not met:
`CHECK(cond)` throws `check_error` if and only if `cond` is false, each of
`CHECK_EQ`, `CHECK_NE`, `CHECK_GT`, `CHECK_GE`, `CHECK_LT`, `CHECK_LE` on
`(a, b)` throws `check_error` if and only if `a == b`, `a != b`, `a > b`,
`a >= b`, `a < b`, `a <= b` respectively is false, and each macro falls
through without any effect if and only if its condition holds. -/
theorem C5_check_macros_throw {α : Type} [DecidableEq α] [LT α] [LE α]
    [DecidableRel (fun x y : α => x < y)] [DecidableRel (fun x y : α => x ≤ y)]
    [ToString α] (cond : Bool) (a b : α) (condText aText bText file : String) (line : ℕ) :
    ((test.throws (test.CHECK cond condText file line) = true ↔ cond = false) ∧
      (test.CHECK cond condText file line = Except.ok () ↔ cond = true)) ∧
    ((test.throws (test.CHECK_EQ a b aText bText file line) = true ↔ ¬ a = b) ∧
      (test.CHECK_EQ a b aText bText file line = Except.ok () ↔ a = b)) ∧
    ((test.throws (test.CHECK_NE a b aText bText file line) = true ↔ ¬ a ≠ b) ∧
      (test.CHECK_NE a b aText bText file line = Except.ok () ↔ a ≠ b)) ∧
    ((test.throws (test.CHECK_GT a b aText bText file line) = true ↔ ¬ a > b) ∧
      (test.CHECK_GT a b aText bText file line = Except.ok () ↔ a > b)) ∧
    ((test.throws (test.CHECK_GE a b aText bText file line) = true ↔ ¬ a ≥ b) ∧
      (test.CHECK_GE a b aText bText file line = Except.ok () ↔ a ≥ b)) ∧
    ((test.throws (test.CHECK_LT a b aText bText file line) = true ↔ ¬ a < b) ∧
      (test.CHECK_LT a b aText bText file line = Except.ok () ↔ a < b)) ∧
    ((test.throws (test.CHECK_LE a b aText bText file line) = true ↔ ¬ a ≤ b) ∧
      (test.CHECK_LE a b aText bText file line = Except.ok () ↔ a ≤ b)) := by
  refine ⟨?_, ?_, ?_, ?_, ?_, ?_, ?_⟩
  · cases cond <;> simp [test.CHECK, test.throws]
  · simpa [test.CHECK_EQ] using test.CHECK_COND_throws (decide (a = b)) _ aText bText _ _ file line
  · simpa [test.CHECK_NE] using test.CHECK_COND_throws (decide (a ≠ b)) _ aText bText _ _ file line
  · simpa [test.CHECK_GT] using test.CHECK_COND_throws (decide (a > b)) _ aText bText _ _ file line
  · simpa [test.CHECK_GE] using test.CHECK_COND_throws (decide (a ≥ b)) _ aText bText _ _ file line
  · simpa [test.CHECK_LT] using test.CHECK_COND_throws (decide (a < b)) _ aText bText _ _ file line
  · simpa [test.CHECK_LE] using test.CHECK_COND_throws (decide (a ≤ b)) _ aText bText _ _ file line

/-- C6. Throttle clamps into 0-100: for every controller state with throttle in
`[0,100]` and throttle step `thr_coeff > 0`, a throttle-up key press sets the
throttle to `min 100 (throttle + thr_coeff)` and a throttle-down key press to
`max 0 (throttle - thr_coeff)`, both again in `[0,100]`, and the pressed key is
returned; from throttle 98 with step 5, two throttle-up presses give 100. -/
theorem C6_throttle_clamps (m : MouseController.State)
    (h0 : 0 ≤ m._throttle) (h100 : m._throttle ≤ 100) (hstep : 0 < m.thr_coeff) :
    (MouseController.get_keystroke_once m MouseController.Key.throttle_up).1._throttle =
      min 100 (m._throttle + m.thr_coeff) ∧
    (MouseController.get_keystroke_once m MouseController.Key.throttle_down).1._throttle =
      max 0 (m._throttle - m.thr_coeff) ∧
    (0 ≤ (MouseController.get_keystroke_once m MouseController.Key.throttle_up).1._throttle ∧
      (MouseController.get_keystroke_once m MouseController.Key.throttle_up).1._throttle ≤ 100) ∧
    (0 ≤ (MouseController.get_keystroke_once m MouseController.Key.throttle_down).1._throttle ∧
      (MouseController.get_keystroke_once m MouseController.Key.throttle_down).1._throttle
        ≤ 100) ∧
    (MouseController.get_keystroke_once m MouseController.Key.throttle_up).2 =
      MouseController.Key.throttle_up ∧
    (MouseController.get_keystroke_once m MouseController.Key.throttle_down).2 =
      MouseController.Key.throttle_down ∧
    MouseController.get_throttle
      (MouseController.get_keystroke_once
        (MouseController.get_keystroke_once
          { thr_coeff := 5, yaw_coeff := 10, speedup := 25, throttle_stable := 50,
            _throttle := 98, _heading := 0 }
          MouseController.Key.throttle_up).1
        MouseController.Key.throttle_up).1 = 100 := by
  simp only [MouseController.get_keystroke_once, MouseController.clamp_throttle,
    MouseController.get_throttle]
  refine ⟨?_, ?_, ⟨?_, ?_⟩, ⟨?_, ?_⟩, trivial, trivial, by decide⟩
  · rw [max_eq_right]
    exact le_min (by norm_num) (by omega)
  · rw [min_eq_right (by omega)]
  · exact le_max_left _ _
  · exact max_le (by norm_num) (min_le_left _ _)
  · exact le_max_left _ _
  · exact max_le (by norm_num) (min_le_left _ _)

/-- C6 at throttle 98 with step 5. -/
theorem C6_throttle_clamps_witness :
    (MouseController.get_keystroke_once
      { thr_coeff := 5, yaw_coeff := 10, speedup := 25, throttle_stable := 50,
        _throttle := 98, _heading := 0 } MouseController.Key.throttle_up).1._throttle =
      min 100 (98 + 5) :=
  (C6_throttle_clamps
    { thr_coeff := 5, yaw_coeff := 10, speedup := 25, throttle_stable := 50,
      _throttle := 98, _heading := 0 } (by decide) (by decide) (by decide)).1

/-- C7. Heading wraps modulo 360: for every controller state (in particular
every one with heading in `[0,360)`) and every yaw step, a heading-increase key
press sets the heading to `(heading + yaw_coeff) mod 360` and a
heading-decrease key press to `(heading - yaw_coeff) mod 360`, the remainder
being taken in `[0,360)`, so the heading is never negative and never 360 or
more; from heading 355 with step 10, one increase gives 5. -/
theorem C7_heading_wraps (m : MouseController.State) :
    (MouseController.get_keystroke_once m MouseController.Key.heading_increase).1._heading =
      (m._heading + m.yaw_coeff) % 360 ∧
    (MouseController.get_keystroke_once m MouseController.Key.heading_decrease).1._heading =
      (m._heading - m.yaw_coeff) % 360 ∧
    (0 ≤ (MouseController.get_keystroke_once m MouseController.Key.heading_increase).1._heading ∧
      (MouseController.get_keystroke_once m MouseController.Key.heading_increase).1._heading
        < 360) ∧
    (0 ≤ (MouseController.get_keystroke_once m MouseController.Key.heading_decrease).1._heading ∧
      (MouseController.get_keystroke_once m MouseController.Key.heading_decrease).1._heading
        < 360) ∧
    MouseController.get_heading
      (MouseController.get_keystroke_once
        { thr_coeff := 5, yaw_coeff := 10, speedup := 25, throttle_stable := 50,
          _throttle := 0, _heading := 355 }
        MouseController.Key.heading_increase).1 = 5 := by
  simp only [MouseController.get_keystroke_once, MouseController.wrap_heading,
    MouseController.get_heading]
  refine ⟨trivial, trivial, ⟨?_, ?_⟩, ⟨?_, ?_⟩, by decide⟩
  · exact Int.emod_nonneg _ (by norm_num)
  · exact Int.emod_lt_of_pos _ (by norm_num)
  · exact Int.emod_nonneg _ (by norm_num)
  · exact Int.emod_lt_of_pos _ (by norm_num)

/-- C8. Options validation: every `Options` value whose `throttle_stable` lies
outside `[0,100]` fails `check()`, and the default-constructed `Options`
(multiplier 10, thr_coeff 5, yaw_coeff 10, speedup 25, throttle_stable 50,
pitch_stable 0, roll_stable 0) passes `check()`. -/
theorem C8_options_check (opt : MouseController.Options)
    (h : opt.throttle_stable < 0 ∨ 100 < opt.throttle_stable) :
    opt.check = false ∧
    MouseController.Options.new.check = true ∧
    MouseController.Options.new =
      { multiplier := 10, thr_coeff := 5, yaw_coeff := 10, speedup := 25,
        throttle_stable := 50, pitch_stable := 0, roll_stable := 0 } := by
  refine ⟨?_, by decide, rfl⟩
  simp only [MouseController.Options.check, Bool.and_eq_false_iff, decide_eq_false_iff_not]
  left
  omega

/-- C8 at `throttle_stable = 150` with every other field at its default. -/
theorem C8_options_check_witness :
    ((150 : ℤ) < 0 ∨ (100 : ℤ) < 150) ∧
    MouseController.Options.check
      { multiplier := 10, thr_coeff := 5, yaw_coeff := 10, speedup := 25,
        throttle_stable := 150, pitch_stable := 0, roll_stable := 0 } = false :=
  ⟨by decide,
    (C8_options_check
      { multiplier := 10, thr_coeff := 5, yaw_coeff := 10, speedup := 25,
        throttle_stable := 150, pitch_stable := 0, roll_stable := 0 } (by decide)).1⟩

/-- C9. Sensitivity change: for every multiplier `mult` (in particular every
`mult ≥ 1`) and every change `diff` (in particular `+1` and `-1`),
`_change_coeff` leaves `mult = max 1 (mult + diff)` and sets `pitch_coeff` and
`roll_coeff` to the new `mult` times `_att_mult_dflt` (the base rate 0.0001);
the multiplier never becomes 0 or negative. -/
theorem C9_change_coeff (diff mult : ℤ) (pitch_coeff roll_coeff : ℚ) :
    (MouseController._change_coeff diff mult pitch_coeff roll_coeff).1 = max 1 (mult + diff) ∧
    (MouseController._change_coeff diff mult pitch_coeff roll_coeff).2.1 =
      ((MouseController._change_coeff diff mult pitch_coeff roll_coeff).1 : ℚ) *
        MouseController._att_mult_dflt ∧
    (MouseController._change_coeff diff mult pitch_coeff roll_coeff).2.2 =
      ((MouseController._change_coeff diff mult pitch_coeff roll_coeff).1 : ℚ) *
        MouseController._att_mult_dflt ∧
    MouseController._att_mult_dflt = 1 / 10000 ∧
    0 < (MouseController._change_coeff diff mult pitch_coeff roll_coeff).1 := by
  refine ⟨rfl, rfl, rfl, rfl, ?_⟩
  simp only [MouseController._change_coeff]
  exact lt_of_lt_of_le one_pos (le_max_left _ _)
